import Mathlib

/-!
Verification of the backtracking search engine of a grid-based
constraint-satisfaction library (`src/Solver.ts`, with the data model of
`src/GridEngine.ts` and the rule-set contract of `src/RulesEngine.ts`).

The solver mutates a board — an ordered list of cells whose `value` field is
either unassigned (`null`) or a positive integer — in place.  The shallow
embedding threads the cell list through the recursion explicitly and, in
addition to the boolean result the TypeScript functions return, also returns
the final cell list (the in-place mutation's net effect) and a trace of every
`ruleSet.validateMove(board, cell, value)` invocation, recording the board
state, the cell index and the candidate value at the moment of the call.

The random solver's shuffled candidate list (`values.sort(() => Math.random()
- 0.5)`, one fresh shuffle per recursive invocation) is modelled by an oracle
`perms : Nat → List Nat`; invocation number `k` uses candidate list `perms k`.
-/

namespace GridGame

/-- A board cell (`Cell` of `GridEngine.ts`): a position and a mutable value
that is either unassigned (`none`) or an integer.  The `metadata` record is
never read or written by the solver and is omitted. -/
structure Cell where
  x : Nat
  y : Nat
  value : Option Nat
deriving DecidableEq, Repr

/-- The rule-set contract consumed by the solver: `validateMove` as a function
of the current cell list, the index of the candidate cell, and the candidate
value.  (The TypeScript signature receives the cell object itself; the index
identifies it inside the board.) -/
def Validator : Type := List Cell → Nat → Nat → Bool

/-- Look up the cell at index `i` (mirrors `board.cells[i]` access). -/
def nthCell : List Cell → Nat → Option Cell
  | [], _ => none
  | c :: _, 0 => some c
  | _ :: cs, i + 1 => nthCell cs i

/-- Write `v` into the `value` field of the cell at index `i`
(mirrors `cell.value = v` on a cell found inside `board.cells`). -/
def setCell : List Cell → Nat → Option Nat → List Cell
  | [], _, _ => []
  | c :: cs, 0, v => { c with value := v } :: cs
  | c :: cs, i + 1, v => c :: setCell cs i v

/-- Index of the first unassigned cell
(mirrors `board.cells.find((c) => c.value === null)`). -/
def findEmptyIdx : List Cell → Option Nat
  | [] => none
  | c :: cs => if c.value = none then some 0 else (findEmptyIdx cs).map (· + 1)

/-- Number of unassigned cells; the termination measure of the search. -/
def countUnassigned : List Cell → Nat
  | [] => 0
  | c :: cs => (if c.value = none then 1 else 0) + countUnassigned cs

/-- One recorded `validateMove` invocation: the cell list at the moment of the
call, the index of the cell being filled, and the candidate value. -/
structure CallRec where
  state : List Cell
  idx : Nat
  val : Nat
deriving DecidableEq, Repr

/-- Result of one run of the plain / random backtracking search:
the returned boolean, the final cell list, the next shuffle-invocation
number, and the trace of `validateMove` calls in order. -/
structure SearchRes where
  ok : Bool
  cells : List Cell
  k : Nat
  trace : List CallRec
deriving DecidableEq, Repr

/-- The candidate loop of `solveRecursive` (`for (const val of values)`):
try each value in order at cell `i`; on a validated value assign it and run
`recur` (the next recursion level); propagate success immediately, otherwise
reset the cell to unassigned and continue with the next value. -/
def tryVals (va : Validator) (recur : Nat → List Cell → SearchRes) (i : Nat) :
    List Cell → Nat → List Nat → SearchRes
  | cells, k, [] => ⟨false, cells, k, []⟩
  | cells, k, v :: vs =>
    if va cells i v then
      let r := recur k (setCell cells i (some v))
      if r.ok then ⟨true, r.cells, r.k, ⟨cells, i, v⟩ :: r.trace⟩
      else
        let r2 := tryVals va recur i (setCell r.cells i none) r.k vs
        ⟨r2.ok, r2.cells, r2.k, ⟨cells, i, v⟩ :: (r.trace ++ r2.trace)⟩
    else
      let r2 := tryVals va recur i cells k vs
      ⟨r2.ok, r2.cells, r2.k, ⟨cells, i, v⟩ :: r2.trace⟩

/-- Embeds `solveRecursive` of `backtrackingSolver` and
`randomBacktrackingSolver`:
find the first unassigned cell; if none, the board is complete (`true`);
otherwise run the candidate loop with candidate list `cand k` (ascending
`1..max` for the plain solver, the `k`-th shuffle for the random one).
`fuel` bounds the recursion depth; the callers supply `countUnassigned`,
which section `Termination` below proves sufficient. -/
def solveRec (va : Validator) (cand : Nat → List Nat) :
    Nat → Nat → List Cell → SearchRes
  | 0, k, cells =>
    match findEmptyIdx cells with
    | none => ⟨true, cells, k, []⟩
    | some _ => ⟨false, cells, k, []⟩
  | f + 1, k, cells =>
    match findEmptyIdx cells with
    | none => ⟨true, cells, k, []⟩
    | some i => tryVals va (fun k2 c => solveRec va cand f k2 c) i cells (k + 1) (cand k)

/-- Embeds `const max = maxValue || board.cells.length`: an omitted `maxValue` and —
because `0` is falsy in JavaScript — a `maxValue` of `0` both default to the
number of cells; any other value, including a negative one, is kept. -/
def effMax (len : Nat) : Option Int → Int
  | none => (len : Int)
  | some m => if m = 0 then (len : Int) else m

/-- The ascending candidate list `1, 2, ..., max` of
`for (let val = 1; val <= max; val++)`; empty when `max ≤ 0`. -/
def candRange (max : Int) : List Nat := List.range' 1 max.toNat

/-- Embeds `backtrackingSolver(board, ruleSet, maxValue?)`. -/
def backtrackingSolver (cells : List Cell) (va : Validator) (maxValue : Option Int) :
    SearchRes :=
  solveRec va (fun _ => candRange (effMax cells.length maxValue))
    (countUnassigned cells) 0 cells

/-- Embeds `randomBacktrackingSolver(board, ruleSet, maxValue?)`; `perms k` is the
shuffled copy of `1..max` produced at the `k`-th recursive invocation. -/
def randomBacktrackingSolver (cells : List Cell) (va : Validator) (maxValue : Option Int)
    (perms : Nat → List Nat) : SearchRes :=
  solveRec va perms (countUnassigned cells) 0 cells

/-- The `{solutionFound, multipleSolutions}` pair returned by `solutionChecker`. -/
structure SolverResult where
  solutionFound : Bool
  multipleSolutions : Bool
deriving DecidableEq, Repr

/-- Result of one run of the counting search: the early-stop signal, the
solution counter, the final cell list, and the `validateMove` trace. -/
structure CountRes where
  stop : Bool
  cnt : Nat
  cells : List Cell
  trace : List CallRec
deriving DecidableEq, Repr

/-- Result of `solutionChecker`: the returned pair plus the board's final
contents and the `validateMove` trace. -/
structure CheckerRes where
  result : SolverResult
  cells : List Cell
  trace : List CallRec
deriving DecidableEq, Repr

/-- The candidate loop of `solutionChecker.solveRecursive`: like `tryVals`,
but the deeper call's boolean is an early-stop signal that bubbles up without
resetting the cell, and the solution counter is threaded through. -/
def countTry (va : Validator) (recur : Nat → List Cell → CountRes) (i : Nat) :
    List Cell → Nat → List Nat → CountRes
  | cells, cnt, [] => ⟨false, cnt, cells, []⟩
  | cells, cnt, v :: vs =>
    if va cells i v then
      let r := recur cnt (setCell cells i (some v))
      if r.stop then ⟨true, r.cnt, r.cells, ⟨cells, i, v⟩ :: r.trace⟩
      else
        let r2 := countTry va recur i (setCell r.cells i none) r.cnt vs
        ⟨r2.stop, r2.cnt, r2.cells, ⟨cells, i, v⟩ :: (r.trace ++ r2.trace)⟩
    else
      let r2 := countTry va recur i cells cnt vs
      ⟨r2.stop, r2.cnt, r2.cells, ⟨cells, i, v⟩ :: r2.trace⟩

/-- Embeds `solutionChecker.solveRecursive`: on a complete board increment the
solution counter and signal stop once it reaches two; otherwise run the
candidate loop over the fixed ascending list `vals`. -/
def countRec (va : Validator) (vals : List Nat) :
    Nat → Nat → List Cell → CountRes
  | 0, cnt, cells =>
    match findEmptyIdx cells with
    | none => ⟨decide (2 ≤ cnt + 1), cnt + 1, cells, []⟩
    | some _ => ⟨false, cnt, cells, []⟩
  | f + 1, cnt, cells =>
    match findEmptyIdx cells with
    | none => ⟨decide (2 ≤ cnt + 1), cnt + 1, cells, []⟩
    | some i => countTry va (fun c2 c => countRec va vals f c2 c) i cells cnt vals

/-- Embeds `solutionChecker(board, ruleSet, maxValue?)`. -/
def solutionChecker (cells : List Cell) (va : Validator) (maxValue : Option Int) :
    CheckerRes :=
  let r := countRec va (candRange (effMax cells.length maxValue))
    (countUnassigned cells) 0 cells
  ⟨⟨decide (0 < r.cnt), decide (1 < r.cnt)⟩, r.cells, r.trace⟩

/-- Branch enumeration used to state what `solutionChecker` counts: the list
of all complete boards reachable from `cells` by repeatedly filling the first
unassigned cell with a validated value from `vals`, in search order. -/
def compTry (va : Validator) (recur : List Cell → List (List Cell))
    (cells : List Cell) (i : Nat) : List Nat → List (List Cell)
  | [] => []
  | v :: vs =>
    (if va cells i v then recur (setCell cells i (some v)) else []) ++
      compTry va recur cells i vs

/-- All complete valid assignments reachable from `cells` (the leaves of the
search tree that `solutionChecker` explores), within recursion depth `fuel`. -/
def completions (va : Validator) (vals : List Nat) :
    Nat → List Cell → List (List Cell)
  | 0, cells =>
    match findEmptyIdx cells with
    | none => [cells]
    | some _ => []
  | f + 1, cells =>
    match findEmptyIdx cells with
    | none => [cells]
    | some i => compTry va (completions va vals f) cells i vals

/-- Predicate stating `final` is a complete valid assignment extending `cells`: starting from
`cells`, the first unassigned cell is repeatedly given a value from `vals`
that `validateMove` accepts against the board state at that moment, until no
unassigned cell remains. -/
inductive Completion (va : Validator) (vals : List Nat) : List Cell → List Cell → Prop
  | done (cells : List Cell) : findEmptyIdx cells = none → Completion va vals cells cells
  | step (cells final : List Cell) (i v : Nat) :
      findEmptyIdx cells = some i → v ∈ vals → va cells i v = true →
      Completion va vals (setCell cells i (some v)) final →
      Completion va vals cells final

/-- Predicate stating `b` keeps every assigned cell of `a` intact: any cell of `a` whose value
is assigned reappears unchanged, at the same index, in `b`. -/
def preservesAssigned (a b : List Cell) : Prop :=
  ∀ i c, nthCell a i = some c → c.value ≠ none → nthCell b i = some c

/-- The always-permissive rule set (`RuleSet.validateMove` default: `return true`). -/
def permissiveVa : Validator := fun _ _ _ => true

/-- A rule set that rejects every move. -/
def rejectVa : Validator := fun _ _ _ => false

/-- A rule set that accepts only the value 1 anywhere. -/
def onlyOneVa : Validator := fun _ _ v => v == 1

/-- A one-cell board whose cell is unassigned. -/
def cellsOne : List Cell := [⟨0, 0, none⟩]

/-- The 2×2 board of the spec's concrete scenario, in the row-major order
produced by `RectangularTopology.initializeCells`, all cells unassigned. -/
def cells4 : List Cell :=
  [⟨0, 0, none⟩, ⟨1, 0, none⟩, ⟨0, 1, none⟩, ⟨1, 1, none⟩]

/-- A one-cell board whose cell is already assigned (a complete board). -/
def completeOne : List Cell := [⟨0, 0, some 1⟩]

/-- A two-cell board with one pre-assigned and one unassigned cell. -/
def demoPre : List Cell := [⟨0, 0, some 7⟩, ⟨1, 0, none⟩]

/-! ### Basic facts about the board primitives -/

theorem length_setCell (cells : List Cell) (i : Nat) (v : Option Nat) :
    (setCell cells i v).length = cells.length := by
  induction cells generalizing i with
  | nil => rfl
  | cons c cs ih => cases i <;> simp [setCell, ih]

theorem nthCell_setCell_self (cells : List Cell) (i : Nat) (v : Option Nat) :
    nthCell (setCell cells i v) i =
      (nthCell cells i).map (fun c => { c with value := v }) := by
  induction cells generalizing i with
  | nil => cases i <;> rfl
  | cons c cs ih => cases i <;> simp [setCell, nthCell, ih]

theorem nthCell_setCell_of_ne (cells : List Cell) {i j : Nat} (h : i ≠ j)
    (v : Option Nat) : nthCell (setCell cells i v) j = nthCell cells j := by
  induction cells generalizing i j with
  | nil => cases i <;> cases j <;> rfl
  | cons c cs ih =>
    cases i with
    | zero =>
      cases j with
      | zero => exact absurd rfl h
      | succ j => simp [setCell, nthCell]
    | succ i =>
      cases j with
      | zero => simp [setCell, nthCell]
      | succ j =>
        simp only [setCell, nthCell]
        exact ih (fun hh => h (by rw [hh]))

theorem setCell_setCell (cells : List Cell) (i : Nat) (v w : Option Nat) :
    setCell (setCell cells i v) i w = setCell cells i w := by
  induction cells generalizing i with
  | nil => rfl
  | cons c cs ih => cases i <;> simp [setCell, ih]

theorem setCell_eq_of_value (cells : List Cell) (i : Nat) {c : Cell}
    (h : nthCell cells i = some c) {v : Option Nat} (hv : c.value = v) :
    setCell cells i v = cells := by
  induction cells generalizing i with
  | nil => simp [nthCell] at h
  | cons d ds ih =>
    cases i with
    | zero =>
      simp only [nthCell, Option.some.injEq] at h
      subst h
      subst hv
      clear ih
      cases d
      simp [setCell]
    | succ i =>
      simp only [nthCell] at h
      simp [setCell, ih i h]

theorem findEmptyIdx_eq_none (cells : List Cell) :
    findEmptyIdx cells = none ↔ ∀ c ∈ cells, c.value ≠ none := by
  induction cells with
  | nil => simp [findEmptyIdx]
  | cons c cs ih =>
    by_cases h : c.value = none <;>
      simp [findEmptyIdx, h, ih, Option.map_eq_none']

theorem findEmptyIdx_some (cells : List Cell) (i : Nat)
    (h : findEmptyIdx cells = some i) :
    ∃ c, nthCell cells i = some c ∧ c.value = none := by
  induction cells generalizing i with
  | nil => simp [findEmptyIdx] at h
  | cons c cs ih =>
    by_cases hc : c.value = none
    · simp only [findEmptyIdx, hc, if_true, Option.some.injEq] at h
      subst h
      exact ⟨c, rfl, hc⟩
    · simp only [findEmptyIdx, hc, if_false, Option.map_eq_some'] at h
      obtain ⟨j, hj, hji⟩ := h
      subst hji
      exact ih j hj

theorem countUnassigned_eq_zero (cells : List Cell) :
    countUnassigned cells = 0 ↔ findEmptyIdx cells = none := by
  induction cells with
  | nil => simp [countUnassigned, findEmptyIdx]
  | cons c cs ih =>
    by_cases h : c.value = none <;>
      simp [countUnassigned, findEmptyIdx, h, ih, Option.map_eq_none']

theorem countUnassigned_setCell (cells : List Cell) (i : Nat) {c : Cell}
    (h : nthCell cells i = some c) (hc : c.value = none) (v : Nat) :
    countUnassigned cells = countUnassigned (setCell cells i (some v)) + 1 := by
  induction cells generalizing i with
  | nil => simp [nthCell] at h
  | cons d ds ih =>
    cases i with
    | zero =>
      simp only [nthCell, Option.some.injEq] at h
      subst h
      simp [setCell, countUnassigned, hc]
      omega
    | succ i =>
      simp only [nthCell] at h
      have hrec := ih i h
      simp only [setCell, countUnassigned]
      omega

theorem countUnassigned_pos (cells : List Cell) (i : Nat) {c : Cell}
    (h : nthCell cells i = some c) (hc : c.value = none) :
    0 < countUnassigned cells := by
  rw [countUnassigned_setCell cells i h hc 1]
  omega

/-! ### Basic facts about `preservesAssigned` -/

theorem preservesAssigned_refl (a : List Cell) : preservesAssigned a a :=
  fun _ _ h _ => h

theorem preservesAssigned_trans {a b c : List Cell}
    (h1 : preservesAssigned a b) (h2 : preservesAssigned b c) :
    preservesAssigned a c :=
  fun i x hx hv => h2 i x (h1 i x hx hv) hv

theorem preservesAssigned_setCell (cells : List Cell) (i : Nat) {c : Cell}
    (h : nthCell cells i = some c) (hc : c.value = none) (v : Option Nat) :
    preservesAssigned cells (setCell cells i v) := by
  intro j d hd hv
  by_cases hij : i = j
  · subst hij
    rw [h] at hd
    injection hd with hd
    subst hd
    exact absurd hc hv
  · rw [nthCell_setCell_of_ne cells hij]
    exact hd

/-! ### Unfolding equations for the search recursions -/

theorem tryVals_nil (va : Validator) (recur : Nat → List Cell → SearchRes)
    (i : Nat) (cells : List Cell) (k : Nat) :
    tryVals va recur i cells k [] = ⟨false, cells, k, []⟩ := rfl

theorem tryVals_cons_invalid (va : Validator) (recur : Nat → List Cell → SearchRes)
    (i : Nat) (cells : List Cell) (k v : Nat) (vs : List Nat)
    (h : va cells i v = false) :
    tryVals va recur i cells k (v :: vs) =
      ⟨(tryVals va recur i cells k vs).ok,
       (tryVals va recur i cells k vs).cells,
       (tryVals va recur i cells k vs).k,
       ⟨cells, i, v⟩ :: (tryVals va recur i cells k vs).trace⟩ := by
  simp [tryVals, h]

theorem tryVals_cons_ok (va : Validator) (recur : Nat → List Cell → SearchRes)
    (i : Nat) (cells : List Cell) (k v : Nat) (vs : List Nat)
    (h : va cells i v = true)
    (hok : (recur k (setCell cells i (some v))).ok = true) :
    tryVals va recur i cells k (v :: vs) =
      ⟨true, (recur k (setCell cells i (some v))).cells,
       (recur k (setCell cells i (some v))).k,
       ⟨cells, i, v⟩ :: (recur k (setCell cells i (some v))).trace⟩ := by
  simp [tryVals, h, hok]

theorem tryVals_cons_fail (va : Validator) (recur : Nat → List Cell → SearchRes)
    (i : Nat) (cells : List Cell) (k v : Nat) (vs : List Nat)
    (h : va cells i v = true)
    (hok : (recur k (setCell cells i (some v))).ok = false) :
    tryVals va recur i cells k (v :: vs) =
      ⟨(tryVals va recur i (setCell (recur k (setCell cells i (some v))).cells i none)
          (recur k (setCell cells i (some v))).k vs).ok,
       (tryVals va recur i (setCell (recur k (setCell cells i (some v))).cells i none)
          (recur k (setCell cells i (some v))).k vs).cells,
       (tryVals va recur i (setCell (recur k (setCell cells i (some v))).cells i none)
          (recur k (setCell cells i (some v))).k vs).k,
       ⟨cells, i, v⟩ :: ((recur k (setCell cells i (some v))).trace ++
         (tryVals va recur i (setCell (recur k (setCell cells i (some v))).cells i none)
            (recur k (setCell cells i (some v))).k vs).trace)⟩ := by
  simp [tryVals, h, hok]

theorem solveRec_complete (va : Validator) (cand : Nat → List Nat)
    (fuel k : Nat) (cells : List Cell) (h : findEmptyIdx cells = none) :
    solveRec va cand fuel k cells = ⟨true, cells, k, []⟩ := by
  cases fuel <;> simp [solveRec, h]

theorem solveRec_zero (va : Validator) (cand : Nat → List Nat)
    (k : Nat) (cells : List Cell) (i : Nat) (h : findEmptyIdx cells = some i) :
    solveRec va cand 0 k cells = ⟨false, cells, k, []⟩ := by
  simp [solveRec, h]

theorem solveRec_succ (va : Validator) (cand : Nat → List Nat)
    (f k : Nat) (cells : List Cell) (i : Nat) (h : findEmptyIdx cells = some i) :
    solveRec va cand (f + 1) k cells =
      tryVals va (fun k2 c => solveRec va cand f k2 c) i cells (k + 1) (cand k) := by
  simp [solveRec, h]

theorem countTry_nil (va : Validator) (recur : Nat → List Cell → CountRes)
    (i : Nat) (cells : List Cell) (cnt : Nat) :
    countTry va recur i cells cnt [] = ⟨false, cnt, cells, []⟩ := rfl

theorem countTry_cons_invalid (va : Validator) (recur : Nat → List Cell → CountRes)
    (i : Nat) (cells : List Cell) (cnt v : Nat) (vs : List Nat)
    (h : va cells i v = false) :
    countTry va recur i cells cnt (v :: vs) =
      ⟨(countTry va recur i cells cnt vs).stop,
       (countTry va recur i cells cnt vs).cnt,
       (countTry va recur i cells cnt vs).cells,
       ⟨cells, i, v⟩ :: (countTry va recur i cells cnt vs).trace⟩ := by
  simp [countTry, h]

theorem countTry_cons_stop (va : Validator) (recur : Nat → List Cell → CountRes)
    (i : Nat) (cells : List Cell) (cnt v : Nat) (vs : List Nat)
    (h : va cells i v = true)
    (hs : (recur cnt (setCell cells i (some v))).stop = true) :
    countTry va recur i cells cnt (v :: vs) =
      ⟨true, (recur cnt (setCell cells i (some v))).cnt,
       (recur cnt (setCell cells i (some v))).cells,
       ⟨cells, i, v⟩ :: (recur cnt (setCell cells i (some v))).trace⟩ := by
  simp [countTry, h, hs]

theorem countTry_cons_go (va : Validator) (recur : Nat → List Cell → CountRes)
    (i : Nat) (cells : List Cell) (cnt v : Nat) (vs : List Nat)
    (h : va cells i v = true)
    (hs : (recur cnt (setCell cells i (some v))).stop = false) :
    countTry va recur i cells cnt (v :: vs) =
      ⟨(countTry va recur i (setCell (recur cnt (setCell cells i (some v))).cells i none)
          (recur cnt (setCell cells i (some v))).cnt vs).stop,
       (countTry va recur i (setCell (recur cnt (setCell cells i (some v))).cells i none)
          (recur cnt (setCell cells i (some v))).cnt vs).cnt,
       (countTry va recur i (setCell (recur cnt (setCell cells i (some v))).cells i none)
          (recur cnt (setCell cells i (some v))).cnt vs).cells,
       ⟨cells, i, v⟩ :: ((recur cnt (setCell cells i (some v))).trace ++
         (countTry va recur i (setCell (recur cnt (setCell cells i (some v))).cells i none)
            (recur cnt (setCell cells i (some v))).cnt vs).trace)⟩ := by
  simp [countTry, h, hs]

theorem countRec_complete (va : Validator) (vals : List Nat)
    (fuel cnt : Nat) (cells : List Cell) (h : findEmptyIdx cells = none) :
    countRec va vals fuel cnt cells =
      ⟨decide (2 ≤ cnt + 1), cnt + 1, cells, []⟩ := by
  cases fuel <;> simp [countRec, h]

theorem countRec_zero (va : Validator) (vals : List Nat)
    (cnt : Nat) (cells : List Cell) (i : Nat) (h : findEmptyIdx cells = some i) :
    countRec va vals 0 cnt cells = ⟨false, cnt, cells, []⟩ := by
  simp [countRec, h]

theorem countRec_succ (va : Validator) (vals : List Nat)
    (f cnt : Nat) (cells : List Cell) (i : Nat) (h : findEmptyIdx cells = some i) :
    countRec va vals (f + 1) cnt cells =
      countTry va (fun c2 c => countRec va vals f c2 c) i cells cnt vals := by
  simp [countRec, h]

theorem compTry_nil (va : Validator) (recur : List Cell → List (List Cell))
    (cells : List Cell) (i : Nat) : compTry va recur cells i [] = [] := rfl

theorem compTry_cons (va : Validator) (recur : List Cell → List (List Cell))
    (cells : List Cell) (i v : Nat) (vs : List Nat) :
    compTry va recur cells i (v :: vs) =
      (if va cells i v then recur (setCell cells i (some v)) else []) ++
        compTry va recur cells i vs := rfl

theorem completions_complete_board (va : Validator) (vals : List Nat)
    (fuel : Nat) (cells : List Cell) (h : findEmptyIdx cells = none) :
    completions va vals fuel cells = [cells] := by
  cases fuel <;> simp [completions, h]

theorem completions_zero (va : Validator) (vals : List Nat)
    (cells : List Cell) (i : Nat) (h : findEmptyIdx cells = some i) :
    completions va vals 0 cells = [] := by
  simp [completions, h]

theorem completions_succ (va : Validator) (vals : List Nat)
    (f : Nat) (cells : List Cell) (i : Nat) (h : findEmptyIdx cells = some i) :
    completions va vals (f + 1) cells =
      compTry va (completions va vals f) cells i vals := by
  simp [completions, h]

/-! ### Restore on failure (the backtracking undo discipline) -/

theorem tryVals_restore (va : Validator) (recur : Nat → List Cell → SearchRes)
    (i : Nat)
    (hrec : ∀ k c, (recur k c).ok = false → (recur k c).cells = c) :
    ∀ (vals : List Nat) (cells : List Cell) (k : Nat) (c0 : Cell),
      nthCell cells i = some c0 → c0.value = none →
      (tryVals va recur i cells k vals).ok = false →
      (tryVals va recur i cells k vals).cells = cells := by
  intro vals
  induction vals with
  | nil => intro cells k c0 _ _ _; rfl
  | cons v vs ih =>
    intro cells k c0 hc hv hok
    cases hva : va cells i v with
    | false =>
      rw [tryVals_cons_invalid va recur i cells k v vs hva] at hok ⊢
      exact ih cells k c0 hc hv hok
    | true =>
      cases hr : (recur k (setCell cells i (some v))).ok with
      | true =>
        rw [tryVals_cons_ok va recur i cells k v vs hva hr] at hok
        simp at hok
      | false =>
        have hre : (recur k (setCell cells i (some v))).cells =
            setCell cells i (some v) := hrec _ _ hr
        rw [tryVals_cons_fail va recur i cells k v vs hva hr] at hok ⊢
        dsimp only at hok ⊢
        rw [hre, setCell_setCell, setCell_eq_of_value cells i hc hv] at hok ⊢
        exact ih cells _ c0 hc hv hok

theorem solveRec_restore (va : Validator) (cand : Nat → List Nat) :
    ∀ (fuel k : Nat) (cells : List Cell),
      (solveRec va cand fuel k cells).ok = false →
      (solveRec va cand fuel k cells).cells = cells := by
  intro fuel
  induction fuel with
  | zero =>
    intro k cells _
    cases h : findEmptyIdx cells with
    | none => rw [solveRec_complete va cand 0 k cells h]
    | some i => rw [solveRec_zero va cand k cells i h]
  | succ f ih =>
    intro k cells hok
    cases h : findEmptyIdx cells with
    | none => rw [solveRec_complete va cand (f + 1) k cells h]
    | some i =>
      rw [solveRec_succ va cand f k cells i h] at hok ⊢
      obtain ⟨c, hc, hv⟩ := findEmptyIdx_some cells i h
      exact tryVals_restore va _ i (fun k2 c2 => ih k2 c2) (cand k)
        cells (k + 1) c hc hv hok

/-! ### Assigned cells are never overwritten -/

theorem tryVals_preserves (va : Validator) (recur : Nat → List Cell → SearchRes)
    (i : Nat)
    (hrecRestore : ∀ k c, (recur k c).ok = false → (recur k c).cells = c)
    (hrecPres : ∀ k c, preservesAssigned c (recur k c).cells) :
    ∀ (vals : List Nat) (cells : List Cell) (k : Nat) (c0 : Cell),
      nthCell cells i = some c0 → c0.value = none →
      preservesAssigned cells (tryVals va recur i cells k vals).cells := by
  intro vals
  induction vals with
  | nil => intro cells k c0 _ _; exact preservesAssigned_refl cells
  | cons v vs ih =>
    intro cells k c0 hc hv
    cases hva : va cells i v with
    | false =>
      rw [tryVals_cons_invalid va recur i cells k v vs hva]
      exact ih cells k c0 hc hv
    | true =>
      cases hr : (recur k (setCell cells i (some v))).ok with
      | true =>
        rw [tryVals_cons_ok va recur i cells k v vs hva hr]
        exact preservesAssigned_trans
          (preservesAssigned_setCell cells i hc hv (some v)) (hrecPres _ _)
      | false =>
        rw [tryVals_cons_fail va recur i cells k v vs hva hr]
        dsimp only
        rw [hrecRestore _ _ hr, setCell_setCell, setCell_eq_of_value cells i hc hv]
        exact ih cells _ c0 hc hv

theorem solveRec_preserves (va : Validator) (cand : Nat → List Nat) :
    ∀ (fuel k : Nat) (cells : List Cell),
      preservesAssigned cells (solveRec va cand fuel k cells).cells := by
  intro fuel
  induction fuel with
  | zero =>
    intro k cells
    cases h : findEmptyIdx cells with
    | none => rw [solveRec_complete va cand 0 k cells h]; exact preservesAssigned_refl cells
    | some i => rw [solveRec_zero va cand k cells i h]; exact preservesAssigned_refl cells
  | succ f ih =>
    intro k cells
    cases h : findEmptyIdx cells with
    | none =>
      rw [solveRec_complete va cand (f + 1) k cells h]
      exact preservesAssigned_refl cells
    | some i =>
      rw [solveRec_succ va cand f k cells i h]
      obtain ⟨c, hc, hv⟩ := findEmptyIdx_some cells i h
      exact tryVals_preserves va _ i (fun k2 c2 => solveRec_restore va cand f k2 c2)
        (fun k2 c2 => ih k2 c2) (cand k) cells (k + 1) c hc hv

/-! ### On success the final board is a valid completion of the input -/

theorem tryVals_success (va : Validator) (recur : Nat → List Cell → SearchRes)
    (i : Nat) (vals0 : List Nat)
    (hrecRestore : ∀ k c, (recur k c).ok = false → (recur k c).cells = c)
    (hrecPath : ∀ k c, (recur k c).ok = true →
        Completion va vals0 c (recur k c).cells) :
    ∀ (vals : List Nat), (∀ v ∈ vals, v ∈ vals0) →
      ∀ (cells : List Cell) (k : Nat),
        findEmptyIdx cells = some i →
        (tryVals va recur i cells k vals).ok = true →
        Completion va vals0 cells (tryVals va recur i cells k vals).cells := by
  intro vals
  induction vals with
  | nil => intro _ cells k _ hok; simp [tryVals_nil] at hok
  | cons v vs ih =>
    intro hsub cells k hemp hok
    obtain ⟨c, hc, hv⟩ := findEmptyIdx_some cells i hemp
    cases hva : va cells i v with
    | false =>
      rw [tryVals_cons_invalid va recur i cells k v vs hva] at hok ⊢
      exact ih (fun w hw => hsub w (List.mem_cons_of_mem v hw)) cells k hemp hok
    | true =>
      cases hr : (recur k (setCell cells i (some v))).ok with
      | true =>
        rw [tryVals_cons_ok va recur i cells k v vs hva hr]
        exact Completion.step cells _ i v hemp (hsub v (List.mem_cons_self v vs))
          hva (hrecPath _ _ hr)
      | false =>
        rw [tryVals_cons_fail va recur i cells k v vs hva hr] at hok ⊢
        dsimp only at hok ⊢
        rw [hrecRestore _ _ hr, setCell_setCell,
          setCell_eq_of_value cells i hc hv] at hok ⊢
        exact ih (fun w hw => hsub w (List.mem_cons_of_mem v hw)) cells _ hemp hok

theorem solveRec_success (va : Validator) (cand : Nat → List Nat) (vals0 : List Nat)
    (hcand : ∀ k v, v ∈ cand k → v ∈ vals0) :
    ∀ (fuel k : Nat) (cells : List Cell),
      (solveRec va cand fuel k cells).ok = true →
      Completion va vals0 cells (solveRec va cand fuel k cells).cells := by
  intro fuel
  induction fuel with
  | zero =>
    intro k cells hok
    cases h : findEmptyIdx cells with
    | none => rw [solveRec_complete va cand 0 k cells h]; exact Completion.done cells h
    | some i => rw [solveRec_zero va cand k cells i h] at hok; simp at hok
  | succ f ih =>
    intro k cells hok
    cases h : findEmptyIdx cells with
    | none =>
      rw [solveRec_complete va cand (f + 1) k cells h]
      exact Completion.done cells h
    | some i =>
      rw [solveRec_succ va cand f k cells i h] at hok ⊢
      exact tryVals_success va _ i vals0
        (fun k2 c2 => solveRec_restore va cand f k2 c2)
        (fun k2 c2 => ih k2 c2) (cand k) (hcand k) cells (k + 1) h hok

/-- A completion is a complete board: no unassigned cell remains. -/
theorem completion_complete (va : Validator) (vals : List Nat)
    {cells final : List Cell} (h : Completion va vals cells final) :
    findEmptyIdx final = none := by
  induction h with
  | done cells hc => exact hc
  | step cells final i v _ _ _ _ ih => exact ih

/-- A completion keeps every assigned cell of the board it extends. -/
theorem completion_preserves (va : Validator) (vals : List Nat)
    {cells final : List Cell} (h : Completion va vals cells final) :
    preservesAssigned cells final := by
  induction h with
  | done cells _ => exact preservesAssigned_refl cells
  | step cells final i v hemp _ _ _ ih =>
    obtain ⟨c, hc, hv⟩ := findEmptyIdx_some cells i hemp
    exact preservesAssigned_trans (preservesAssigned_setCell cells i hc hv (some v)) ih

/-! ### Every `validateMove` call targets the first unassigned cell of a
state that keeps the original assigned cells -/

theorem tryVals_trace (va : Validator) (recur : Nat → List Cell → SearchRes)
    (i : Nat)
    (hrecRestore : ∀ k c, (recur k c).ok = false → (recur k c).cells = c)
    (hrecTrace : ∀ k c, ∀ e ∈ (recur k c).trace,
        preservesAssigned c e.state ∧ findEmptyIdx e.state = some e.idx) :
    ∀ (vals : List Nat) (cells : List Cell) (k : Nat),
      findEmptyIdx cells = some i →
      ∀ e ∈ (tryVals va recur i cells k vals).trace,
        preservesAssigned cells e.state ∧ findEmptyIdx e.state = some e.idx := by
  intro vals
  induction vals with
  | nil => intro cells k _ e he; simp [tryVals_nil] at he
  | cons v vs ih =>
    intro cells k hemp e he
    obtain ⟨c, hc, hv⟩ := findEmptyIdx_some cells i hemp
    cases hva : va cells i v with
    | false =>
      rw [tryVals_cons_invalid va recur i cells k v vs hva] at he
      dsimp only at he
      rcases List.mem_cons.mp he with he | he
      · subst he; exact ⟨preservesAssigned_refl cells, hemp⟩
      · exact ih cells k hemp e he
    | true =>
      cases hr : (recur k (setCell cells i (some v))).ok with
      | true =>
        rw [tryVals_cons_ok va recur i cells k v vs hva hr] at he
        dsimp only at he
        rcases List.mem_cons.mp he with he | he
        · subst he; exact ⟨preservesAssigned_refl cells, hemp⟩
        · obtain ⟨h1, h2⟩ := hrecTrace _ _ e he
          exact ⟨preservesAssigned_trans
            (preservesAssigned_setCell cells i hc hv (some v)) h1, h2⟩
      | false =>
        rw [tryVals_cons_fail va recur i cells k v vs hva hr] at he
        dsimp only at he
        rw [hrecRestore _ _ hr, setCell_setCell,
          setCell_eq_of_value cells i hc hv] at he
        rcases List.mem_cons.mp he with he | he
        · subst he; exact ⟨preservesAssigned_refl cells, hemp⟩
        · rcases List.mem_append.mp he with he | he
          · obtain ⟨h1, h2⟩ := hrecTrace _ _ e he
            exact ⟨preservesAssigned_trans
              (preservesAssigned_setCell cells i hc hv (some v)) h1, h2⟩
          · exact ih cells _ hemp e he

theorem solveRec_trace (va : Validator) (cand : Nat → List Nat) :
    ∀ (fuel k : Nat) (cells : List Cell),
      ∀ e ∈ (solveRec va cand fuel k cells).trace,
        preservesAssigned cells e.state ∧ findEmptyIdx e.state = some e.idx := by
  intro fuel
  induction fuel with
  | zero =>
    intro k cells e he
    cases h : findEmptyIdx cells with
    | none => rw [solveRec_complete va cand 0 k cells h] at he; simp at he
    | some i => rw [solveRec_zero va cand k cells i h] at he; simp at he
  | succ f ih =>
    intro k cells e he
    cases h : findEmptyIdx cells with
    | none => rw [solveRec_complete va cand (f + 1) k cells h] at he; simp at he
    | some i =>
      rw [solveRec_succ va cand f k cells i h] at he
      exact tryVals_trace va _ i (fun k2 c2 => solveRec_restore va cand f k2 c2)
        (fun k2 c2 => ih k2 c2) (cand k) cells (k + 1) h e he

/-! ### The counting search: restore, preservation, trace, and the state
left behind when the early-stop signal fires -/

theorem countTry_restore (va : Validator) (recur : Nat → List Cell → CountRes)
    (i : Nat)
    (hrec : ∀ cnt c, (recur cnt c).stop = false → (recur cnt c).cells = c) :
    ∀ (vals : List Nat) (cells : List Cell) (cnt : Nat) (c0 : Cell),
      nthCell cells i = some c0 → c0.value = none →
      (countTry va recur i cells cnt vals).stop = false →
      (countTry va recur i cells cnt vals).cells = cells := by
  intro vals
  induction vals with
  | nil => intro cells cnt c0 _ _ _; rfl
  | cons v vs ih =>
    intro cells cnt c0 hc hv hstop
    cases hva : va cells i v with
    | false =>
      rw [countTry_cons_invalid va recur i cells cnt v vs hva] at hstop ⊢
      exact ih cells cnt c0 hc hv hstop
    | true =>
      cases hs : (recur cnt (setCell cells i (some v))).stop with
      | true =>
        rw [countTry_cons_stop va recur i cells cnt v vs hva hs] at hstop
        simp at hstop
      | false =>
        have hre : (recur cnt (setCell cells i (some v))).cells =
            setCell cells i (some v) := hrec _ _ hs
        rw [countTry_cons_go va recur i cells cnt v vs hva hs] at hstop ⊢
        dsimp only at hstop ⊢
        rw [hre, setCell_setCell, setCell_eq_of_value cells i hc hv] at hstop ⊢
        exact ih cells _ c0 hc hv hstop

theorem countRec_restore (va : Validator) (vals : List Nat) :
    ∀ (fuel cnt : Nat) (cells : List Cell),
      (countRec va vals fuel cnt cells).stop = false →
      (countRec va vals fuel cnt cells).cells = cells := by
  intro fuel
  induction fuel with
  | zero =>
    intro cnt cells _
    cases h : findEmptyIdx cells with
    | none => rw [countRec_complete va vals 0 cnt cells h]
    | some i => rw [countRec_zero va vals cnt cells i h]
  | succ f ih =>
    intro cnt cells hstop
    cases h : findEmptyIdx cells with
    | none => rw [countRec_complete va vals (f + 1) cnt cells h]
    | some i =>
      rw [countRec_succ va vals f cnt cells i h] at hstop ⊢
      obtain ⟨c, hc, hv⟩ := findEmptyIdx_some cells i h
      exact countTry_restore va _ i (fun c2 cl => ih c2 cl) vals cells cnt c hc hv hstop

theorem countTry_preserves (va : Validator) (recur : Nat → List Cell → CountRes)
    (i : Nat)
    (hrecRestore : ∀ cnt c, (recur cnt c).stop = false → (recur cnt c).cells = c)
    (hrecPres : ∀ cnt c, preservesAssigned c (recur cnt c).cells) :
    ∀ (vals : List Nat) (cells : List Cell) (cnt : Nat) (c0 : Cell),
      nthCell cells i = some c0 → c0.value = none →
      preservesAssigned cells (countTry va recur i cells cnt vals).cells := by
  intro vals
  induction vals with
  | nil => intro cells cnt c0 _ _; exact preservesAssigned_refl cells
  | cons v vs ih =>
    intro cells cnt c0 hc hv
    cases hva : va cells i v with
    | false =>
      rw [countTry_cons_invalid va recur i cells cnt v vs hva]
      exact ih cells cnt c0 hc hv
    | true =>
      cases hs : (recur cnt (setCell cells i (some v))).stop with
      | true =>
        rw [countTry_cons_stop va recur i cells cnt v vs hva hs]
        exact preservesAssigned_trans
          (preservesAssigned_setCell cells i hc hv (some v)) (hrecPres _ _)
      | false =>
        rw [countTry_cons_go va recur i cells cnt v vs hva hs]
        dsimp only
        rw [hrecRestore _ _ hs, setCell_setCell, setCell_eq_of_value cells i hc hv]
        exact ih cells _ c0 hc hv

theorem countRec_preserves (va : Validator) (vals : List Nat) :
    ∀ (fuel cnt : Nat) (cells : List Cell),
      preservesAssigned cells (countRec va vals fuel cnt cells).cells := by
  intro fuel
  induction fuel with
  | zero =>
    intro cnt cells
    cases h : findEmptyIdx cells with
    | none =>
      rw [countRec_complete va vals 0 cnt cells h]
      exact preservesAssigned_refl cells
    | some i =>
      rw [countRec_zero va vals cnt cells i h]
      exact preservesAssigned_refl cells
  | succ f ih =>
    intro cnt cells
    cases h : findEmptyIdx cells with
    | none =>
      rw [countRec_complete va vals (f + 1) cnt cells h]
      exact preservesAssigned_refl cells
    | some i =>
      rw [countRec_succ va vals f cnt cells i h]
      obtain ⟨c, hc, hv⟩ := findEmptyIdx_some cells i h
      exact countTry_preserves va _ i (fun c2 cl => countRec_restore va vals f c2 cl)
        (fun c2 cl => ih c2 cl) vals cells cnt c hc hv

theorem countTry_trace (va : Validator) (recur : Nat → List Cell → CountRes)
    (i : Nat)
    (hrecRestore : ∀ cnt c, (recur cnt c).stop = false → (recur cnt c).cells = c)
    (hrecTrace : ∀ cnt c, ∀ e ∈ (recur cnt c).trace,
        preservesAssigned c e.state ∧ findEmptyIdx e.state = some e.idx) :
    ∀ (vals : List Nat) (cells : List Cell) (cnt : Nat),
      findEmptyIdx cells = some i →
      ∀ e ∈ (countTry va recur i cells cnt vals).trace,
        preservesAssigned cells e.state ∧ findEmptyIdx e.state = some e.idx := by
  intro vals
  induction vals with
  | nil => intro cells cnt _ e he; simp [countTry_nil] at he
  | cons v vs ih =>
    intro cells cnt hemp e he
    obtain ⟨c, hc, hv⟩ := findEmptyIdx_some cells i hemp
    cases hva : va cells i v with
    | false =>
      rw [countTry_cons_invalid va recur i cells cnt v vs hva] at he
      dsimp only at he
      rcases List.mem_cons.mp he with he | he
      · subst he; exact ⟨preservesAssigned_refl cells, hemp⟩
      · exact ih cells cnt hemp e he
    | true =>
      cases hs : (recur cnt (setCell cells i (some v))).stop with
      | true =>
        rw [countTry_cons_stop va recur i cells cnt v vs hva hs] at he
        dsimp only at he
        rcases List.mem_cons.mp he with he | he
        · subst he; exact ⟨preservesAssigned_refl cells, hemp⟩
        · obtain ⟨h1, h2⟩ := hrecTrace _ _ e he
          exact ⟨preservesAssigned_trans
            (preservesAssigned_setCell cells i hc hv (some v)) h1, h2⟩
      | false =>
        rw [countTry_cons_go va recur i cells cnt v vs hva hs] at he
        dsimp only at he
        rw [hrecRestore _ _ hs, setCell_setCell,
          setCell_eq_of_value cells i hc hv] at he
        rcases List.mem_cons.mp he with he | he
        · subst he; exact ⟨preservesAssigned_refl cells, hemp⟩
        · rcases List.mem_append.mp he with he | he
          · obtain ⟨h1, h2⟩ := hrecTrace _ _ e he
            exact ⟨preservesAssigned_trans
              (preservesAssigned_setCell cells i hc hv (some v)) h1, h2⟩
          · exact ih cells _ hemp e he

theorem countRec_trace (va : Validator) (vals : List Nat) :
    ∀ (fuel cnt : Nat) (cells : List Cell),
      ∀ e ∈ (countRec va vals fuel cnt cells).trace,
        preservesAssigned cells e.state ∧ findEmptyIdx e.state = some e.idx := by
  intro fuel
  induction fuel with
  | zero =>
    intro cnt cells e he
    cases h : findEmptyIdx cells with
    | none => rw [countRec_complete va vals 0 cnt cells h] at he; simp at he
    | some i => rw [countRec_zero va vals cnt cells i h] at he; simp at he
  | succ f ih =>
    intro cnt cells e he
    cases h : findEmptyIdx cells with
    | none => rw [countRec_complete va vals (f + 1) cnt cells h] at he; simp at he
    | some i =>
      rw [countRec_succ va vals f cnt cells i h] at he
      exact countTry_trace va _ i (fun c2 cl => countRec_restore va vals f c2 cl)
        (fun c2 cl => ih c2 cl) vals cells cnt h e he

theorem countTry_stop_complete (va : Validator) (recur : Nat → List Cell → CountRes)
    (i : Nat)
    (hrecRestore : ∀ cnt c, (recur cnt c).stop = false → (recur cnt c).cells = c)
    (hrecStop : ∀ cnt c, (recur cnt c).stop = true →
        findEmptyIdx (recur cnt c).cells = none) :
    ∀ (vals : List Nat) (cells : List Cell) (cnt : Nat) (c0 : Cell),
      nthCell cells i = some c0 → c0.value = none →
      (countTry va recur i cells cnt vals).stop = true →
      findEmptyIdx (countTry va recur i cells cnt vals).cells = none := by
  intro vals
  induction vals with
  | nil => intro cells cnt c0 _ _ hstop; simp [countTry_nil] at hstop
  | cons v vs ih =>
    intro cells cnt c0 hc hv hstop
    cases hva : va cells i v with
    | false =>
      rw [countTry_cons_invalid va recur i cells cnt v vs hva] at hstop ⊢
      exact ih cells cnt c0 hc hv hstop
    | true =>
      cases hs : (recur cnt (setCell cells i (some v))).stop with
      | true =>
        rw [countTry_cons_stop va recur i cells cnt v vs hva hs]
        exact hrecStop _ _ hs
      | false =>
        rw [countTry_cons_go va recur i cells cnt v vs hva hs] at hstop ⊢
        dsimp only at hstop ⊢
        rw [hrecRestore _ _ hs, setCell_setCell,
          setCell_eq_of_value cells i hc hv] at hstop ⊢
        exact ih cells _ c0 hc hv hstop

theorem countRec_stop_complete (va : Validator) (vals : List Nat) :
    ∀ (fuel cnt : Nat) (cells : List Cell),
      (countRec va vals fuel cnt cells).stop = true →
      findEmptyIdx (countRec va vals fuel cnt cells).cells = none := by
  intro fuel
  induction fuel with
  | zero =>
    intro cnt cells hstop
    cases h : findEmptyIdx cells with
    | none => rw [countRec_complete va vals 0 cnt cells h]; exact h
    | some i => rw [countRec_zero va vals cnt cells i h] at hstop; simp at hstop
  | succ f ih =>
    intro cnt cells hstop
    cases h : findEmptyIdx cells with
    | none => rw [countRec_complete va vals (f + 1) cnt cells h]; exact h
    | some i =>
      rw [countRec_succ va vals f cnt cells i h] at hstop ⊢
      obtain ⟨c, hc, hv⟩ := findEmptyIdx_some cells i h
      exact countTry_stop_complete va _ i (fun c2 cl => countRec_restore va vals f c2 cl)
        (fun c2 cl => ih c2 cl) vals cells cnt c hc hv hstop

/-! ### The branch enumeration: soundness, exhaustiveness, distinctness -/

theorem compTry_mem (va : Validator) (recur : List Cell → List (List Cell))
    (cells : List Cell) (i : Nat) :
    ∀ (vals : List Nat) (x : List Cell),
      x ∈ compTry va recur cells i vals ↔
        ∃ v, v ∈ vals ∧ va cells i v = true ∧
          x ∈ recur (setCell cells i (some v)) := by
  intro vals
  induction vals with
  | nil => intro x; simp [compTry_nil]
  | cons v vs ih =>
    intro x
    rw [compTry_cons, List.mem_append, ih x]
    cases hva : va cells i v with
    | true =>
      simp only [hva, if_true, List.mem_cons]
      constructor
      · rintro (hx | ⟨w, hw, hva2, hx⟩)
        · exact ⟨v, Or.inl rfl, hva, hx⟩
        · exact ⟨w, Or.inr hw, hva2, hx⟩
      · rintro ⟨w, hw, hva2, hx⟩
        rcases hw with rfl | hw
        · exact Or.inl hx
        · exact Or.inr ⟨w, hw, hva2, hx⟩
    | false =>
      simp only [hva, Bool.false_eq_true, if_false, List.not_mem_nil, false_or,
        List.mem_cons]
      constructor
      · rintro ⟨w, hw, hva2, hx⟩
        exact ⟨w, Or.inr hw, hva2, hx⟩
      · rintro ⟨w, hw, hva2, hx⟩
        rcases hw with rfl | hw
        · rw [hva] at hva2; exact absurd hva2 (by simp)
        · exact ⟨w, hw, hva2, hx⟩

theorem completions_sound (va : Validator) (vals : List Nat) :
    ∀ (fuel : Nat) (cells final : List Cell),
      final ∈ completions va vals fuel cells →
      Completion va vals cells final := by
  intro fuel
  induction fuel with
  | zero =>
    intro cells final h
    cases hemp : findEmptyIdx cells with
    | none =>
      rw [completions_complete_board va vals 0 cells hemp] at h
      simp at h
      subst h
      exact Completion.done _ hemp
    | some i =>
      rw [completions_zero va vals cells i hemp] at h
      simp at h
  | succ f ih =>
    intro cells final h
    cases hemp : findEmptyIdx cells with
    | none =>
      rw [completions_complete_board va vals (f + 1) cells hemp] at h
      simp at h
      subst h
      exact Completion.done _ hemp
    | some i =>
      rw [completions_succ va vals f cells i hemp] at h
      obtain ⟨v, hv, hva, hx⟩ := (compTry_mem va _ cells i vals final).mp h
      exact Completion.step cells final i v hemp hv hva (ih _ final hx)

theorem completions_exhaustive (va : Validator) (vals : List Nat)
    {cells final : List Cell} (h : Completion va vals cells final) :
    ∀ fuel, countUnassigned cells ≤ fuel →
      final ∈ completions va vals fuel cells := by
  induction h with
  | done c hc =>
    intro fuel _
    rw [completions_complete_board va vals fuel c hc]
    simp
  | step c final i v hemp hvmem hva _ ih =>
    intro fuel hfuel
    obtain ⟨c0, hc0, hv0⟩ := findEmptyIdx_some c i hemp
    have hcount := countUnassigned_setCell c i hc0 hv0 v
    cases fuel with
    | zero =>
      have := countUnassigned_pos c i hc0 hv0
      omega
    | succ f =>
      rw [completions_succ va vals f c i hemp]
      rw [compTry_mem]
      exact ⟨v, hvmem, hva, ih f (by omega)⟩

theorem completions_pres (va : Validator) (vals : List Nat)
    (fuel : Nat) (cells x : List Cell)
    (hx : x ∈ completions va vals fuel cells) :
    preservesAssigned cells x :=
  completion_preserves va vals (completions_sound va vals fuel cells x hx)

theorem compTry_branch_value (va : Validator)
    (recur : List Cell → List (List Cell)) (cells : List Cell) (i : Nat)
    {c0 : Cell} (hc : nthCell cells i = some c0)
    (hrecPres : ∀ c x, x ∈ recur c → preservesAssigned c x)
    {x : List Cell} {v : Nat}
    (hx : x ∈ recur (setCell cells i (some v))) :
    nthCell x i = some { c0 with value := some v } := by
  have h1 : nthCell (setCell cells i (some v)) i =
      some { c0 with value := some v } := by
    rw [nthCell_setCell_self, hc]
    rfl
  exact hrecPres _ x hx i { c0 with value := some v } h1 (by simp)

theorem compTry_nodup (va : Validator) (recur : List Cell → List (List Cell))
    (cells : List Cell) (i : Nat) {c0 : Cell}
    (hc : nthCell cells i = some c0)
    (hrecNodup : ∀ c, (recur c).Nodup)
    (hrecPres : ∀ c x, x ∈ recur c → preservesAssigned c x) :
    ∀ vals : List Nat, vals.Nodup → (compTry va recur cells i vals).Nodup := by
  intro vals
  induction vals with
  | nil => intro _; simp [compTry_nil]
  | cons v vs ih =>
    intro hnd
    obtain ⟨hvnot, hnd2⟩ := List.nodup_cons.mp hnd
    rw [compTry_cons]
    apply List.Nodup.append
    · cases hva : va cells i v with
      | true => simpa [hva] using hrecNodup (setCell cells i (some v))
      | false => simp [hva]
    · exact ih hnd2
    · intro x hx1 hx2
      by_cases hva : va cells i v = true
      · rw [if_pos hva] at hx1
        have h1 := compTry_branch_value va recur cells i hc hrecPres hx1
        obtain ⟨w, hw, _, hx2m⟩ := (compTry_mem va recur cells i vs x).mp hx2
        have h2 := compTry_branch_value va recur cells i hc hrecPres hx2m
        rw [h1] at h2
        injection h2 with h2
        have hvw : some v = some w := congrArg Cell.value h2
        injection hvw with hvw
        exact hvnot (hvw ▸ hw)
      · rw [if_neg hva] at hx1
        simp at hx1

theorem completions_nodup (va : Validator) (vals : List Nat)
    (hvals : vals.Nodup) :
    ∀ (fuel : Nat) (cells : List Cell),
      (completions va vals fuel cells).Nodup := by
  intro fuel
  induction fuel with
  | zero =>
    intro cells
    cases hemp : findEmptyIdx cells with
    | none => rw [completions_complete_board va vals 0 cells hemp]; simp
    | some i => rw [completions_zero va vals cells i hemp]; simp
  | succ f ih =>
    intro cells
    cases hemp : findEmptyIdx cells with
    | none => rw [completions_complete_board va vals (f + 1) cells hemp]; simp
    | some i =>
      rw [completions_succ va vals f cells i hemp]
      obtain ⟨c0, hc, _⟩ := findEmptyIdx_some cells i hemp
      exact compTry_nodup va _ cells i hc (fun c => ih c)
        (fun c x hx => completions_pres va vals f c x hx) vals hvals

/-! ### Small list counting helpers -/

theorem exists_mem_iff_length_pos {α : Type} (l : List α) :
    (∃ a, a ∈ l) ↔ 0 < l.length := by
  cases l with
  | nil => simp
  | cons a t => exact iff_of_true ⟨a, List.mem_cons_self a t⟩ (Nat.succ_pos _)

theorem two_le_length_of_two_mem {α : Type} {l : List α} {a b : α}
    (ha : a ∈ l) (hb : b ∈ l) (hab : a ≠ b) : 2 ≤ l.length := by
  cases l with
  | nil => simp at ha
  | cons x t =>
    cases t with
    | nil =>
      simp at ha hb
      exact absurd (ha.trans hb.symm) hab
    | cons y t2 =>
      simp only [List.length_cons]
      omega

theorem exists_two_distinct_of_nodup {α : Type} {l : List α}
    (hnd : l.Nodup) (hlen : 2 ≤ l.length) :
    ∃ a b, a ∈ l ∧ b ∈ l ∧ a ≠ b := by
  cases l with
  | nil => simp at hlen
  | cons x t =>
    cases t with
    | nil => simp at hlen
    | cons y t2 =>
      refine ⟨x, y, List.mem_cons_self x _,
        List.mem_cons_of_mem x (List.mem_cons_self y t2), ?_⟩
      intro hxy
      subst hxy
      exact (List.nodup_cons.mp hnd).1 (List.mem_cons_self x t2)

/-! ### What the counter counts: the number of completions, clamped at two -/

theorem countTry_count (va : Validator) (vals0 : List Nat) (f : Nat) (i : Nat)
    (houter : ∀ (cnt : Nat) (c : List Cell), cnt < 2 →
      (countRec va vals0 f cnt c).cnt =
        min (cnt + (completions va vals0 f c).length) 2 ∧
      (countRec va vals0 f cnt c).stop =
        decide (2 ≤ cnt + (completions va vals0 f c).length)) :
    ∀ (vals : List Nat) (cells : List Cell) (cnt : Nat) (c0 : Cell),
      nthCell cells i = some c0 → c0.value = none → cnt < 2 →
      (countTry va (fun c2 c => countRec va vals0 f c2 c) i cells cnt vals).cnt =
        min (cnt + (compTry va (completions va vals0 f) cells i vals).length) 2 ∧
      (countTry va (fun c2 c => countRec va vals0 f c2 c) i cells cnt vals).stop =
        decide (2 ≤ cnt +
          (compTry va (completions va vals0 f) cells i vals).length) := by
  intro vals
  induction vals with
  | nil =>
    intro cells cnt c0 _ _ hcnt
    rw [countTry_nil, compTry_nil]
    dsimp only
    constructor
    · simp only [List.length_nil]
      omega
    · simp only [List.length_nil]
      symm
      rw [decide_eq_false_iff_not]
      omega
  | cons v vs ih =>
    intro cells cnt c0 hc hv hcnt
    cases hva : va cells i v with
    | false =>
      rw [countTry_cons_invalid va _ i cells cnt v vs hva]
      dsimp only
      rw [compTry_cons, if_neg (by simp [hva]), List.nil_append]
      exact ih cells cnt c0 hc hv hcnt
    | true =>
      obtain ⟨hcnt', hstop'⟩ := houter cnt (setCell cells i (some v)) hcnt
      cases hs : (countRec va vals0 f cnt (setCell cells i (some v))).stop with
      | true =>
        have hdec : decide (2 ≤ cnt +
            (completions va vals0 f (setCell cells i (some v))).length) = true := by
          rw [← hstop', hs]
        have hm := of_decide_eq_true hdec
        rw [countTry_cons_stop va _ i cells cnt v vs hva hs]
        dsimp only
        rw [compTry_cons, if_pos hva, List.length_append]
        constructor
        · rw [hcnt']
          omega
        · symm
          rw [decide_eq_true_eq]
          omega
      | false =>
        have hdec : decide (2 ≤ cnt +
            (completions va vals0 f (setCell cells i (some v))).length) = false := by
          rw [← hstop', hs]
        have hm := of_decide_eq_false hdec
        have hre : (countRec va vals0 f cnt (setCell cells i (some v))).cells =
            setCell cells i (some v) := countRec_restore va vals0 f cnt _ hs
        rw [countTry_cons_go va _ i cells cnt v vs hva hs]
        dsimp only
        rw [hre, setCell_setCell, setCell_eq_of_value cells i hc hv, hcnt']
        have hmin : min (cnt +
            (completions va vals0 f (setCell cells i (some v))).length) 2 =
            cnt + (completions va vals0 f (setCell cells i (some v))).length := by
          omega
        rw [hmin]
        obtain ⟨h1, h2⟩ := ih cells
          (cnt + (completions va vals0 f (setCell cells i (some v))).length)
          c0 hc hv (by omega)
        rw [compTry_cons, if_pos hva, List.length_append]
        constructor
        · rw [h1]
          omega
        · rw [h2, Nat.add_assoc]

theorem countRec_count (va : Validator) (vals : List Nat) :
    ∀ (fuel cnt : Nat) (cells : List Cell), cnt < 2 →
      (countRec va vals fuel cnt cells).cnt =
        min (cnt + (completions va vals fuel cells).length) 2 ∧
      (countRec va vals fuel cnt cells).stop =
        decide (2 ≤ cnt + (completions va vals fuel cells).length) := by
  intro fuel
  induction fuel with
  | zero =>
    intro cnt cells hcnt
    cases h : findEmptyIdx cells with
    | none =>
      rw [countRec_complete va vals 0 cnt cells h,
        completions_complete_board va vals 0 cells h]
      dsimp only
      constructor
      · simp only [List.length_singleton]
        omega
      · simp only [List.length_singleton]
    | some i =>
      rw [countRec_zero va vals cnt cells i h, completions_zero va vals cells i h]
      dsimp only
      constructor
      · simp only [List.length_nil]
        omega
      · simp only [List.length_nil]
        symm
        rw [decide_eq_false_iff_not]
        omega
  | succ f ih =>
    intro cnt cells hcnt
    cases h : findEmptyIdx cells with
    | none =>
      rw [countRec_complete va vals (f + 1) cnt cells h,
        completions_complete_board va vals (f + 1) cells h]
      dsimp only
      constructor
      · simp only [List.length_singleton]
        omega
      · simp only [List.length_singleton]
    | some i =>
      rw [countRec_succ va vals f cnt cells i h,
        completions_succ va vals f cells i h]
      obtain ⟨c0, hc, hv⟩ := findEmptyIdx_some cells i h
      exact countTry_count va vals f i (fun c2 c hc2 => ih c2 c hc2)
        vals cells cnt c0 hc hv hcnt

/-! ### Termination: the result is unchanged once the depth bound reaches the
number of unassigned cells, because each recursive call strictly reduces it -/

theorem tryVals_congr (va : Validator)
    (recur1 recur2 : Nat → List Cell → SearchRes) (i : Nat)
    (cells : List Cell) (c0 : Cell)
    (hc : nthCell cells i = some c0) (hv : c0.value = none)
    (hrec1Restore : ∀ k c, (recur1 k c).ok = false → (recur1 k c).cells = c)
    (heq : ∀ k v, recur1 k (setCell cells i (some v)) =
        recur2 k (setCell cells i (some v))) :
    ∀ (vals : List Nat) (k : Nat),
      tryVals va recur1 i cells k vals = tryVals va recur2 i cells k vals := by
  intro vals
  induction vals with
  | nil => intro k; rfl
  | cons v vs ih =>
    intro k
    cases hva : va cells i v with
    | false =>
      rw [tryVals_cons_invalid va recur1 i cells k v vs hva,
        tryVals_cons_invalid va recur2 i cells k v vs hva, ih k]
    | true =>
      cases hr : (recur1 k (setCell cells i (some v))).ok with
      | true =>
        have hr2 : (recur2 k (setCell cells i (some v))).ok = true := by
          rw [← heq k v]; exact hr
        rw [tryVals_cons_ok va recur1 i cells k v vs hva hr,
          tryVals_cons_ok va recur2 i cells k v vs hva hr2, heq k v]
      | false =>
        have hr2 : (recur2 k (setCell cells i (some v))).ok = false := by
          rw [← heq k v]; exact hr
        rw [tryVals_cons_fail va recur1 i cells k v vs hva hr,
          tryVals_cons_fail va recur2 i cells k v vs hva hr2]
        rw [← heq k v]
        rw [hrec1Restore _ _ hr, setCell_setCell,
          setCell_eq_of_value cells i hc hv]
        rw [ih]

theorem solveRec_fuel_succ (va : Validator) (cand : Nat → List Nat) :
    ∀ (n : Nat), ∀ (cells : List Cell), countUnassigned cells = n →
      ∀ (f : Nat), n ≤ f → ∀ (k : Nat),
        solveRec va cand (f + 1) k cells = solveRec va cand f k cells := by
  intro n
  induction n using Nat.strong_induction_on with
  | _ n ih =>
    intro cells hcount f hf k
    cases hemp : findEmptyIdx cells with
    | none =>
      rw [solveRec_complete va cand (f + 1) k cells hemp,
        solveRec_complete va cand f k cells hemp]
    | some i =>
      obtain ⟨c0, hc, hv⟩ := findEmptyIdx_some cells i hemp
      have hpos := countUnassigned_pos cells i hc hv
      cases f with
      | zero => omega
      | succ f2 =>
        rw [solveRec_succ va cand (f2 + 1) k cells i hemp,
          solveRec_succ va cand f2 k cells i hemp]
        refine tryVals_congr va _ _ i cells c0 hc hv
          (fun k2 c2 => solveRec_restore va cand (f2 + 1) k2 c2)
          (fun k2 v => ?_) (cand k) (k + 1)
        have hcount2 := countUnassigned_setCell cells i hc hv v
        exact ih (n - 1) (by omega) (setCell cells i (some v)) (by omega)
          f2 (by omega) k2

theorem solveRec_fuel_add (va : Validator) (cand : Nat → List Nat) :
    ∀ (d : Nat) (cells : List Cell) (k : Nat),
      solveRec va cand (countUnassigned cells + d) k cells =
        solveRec va cand (countUnassigned cells) k cells := by
  intro d
  induction d with
  | zero => intro cells k; rfl
  | succ d ih =>
    intro cells k
    have hstep : countUnassigned cells + (d + 1) =
        (countUnassigned cells + d) + 1 := by omega
    rw [hstep, solveRec_fuel_succ va cand (countUnassigned cells) cells rfl
      (countUnassigned cells + d) (by omega) k, ih cells k]

theorem solveRec_fuel_irrel (va : Validator) (cand : Nat → List Nat)
    (fuel k : Nat) (cells : List Cell)
    (hf : countUnassigned cells ≤ fuel) :
    solveRec va cand fuel k cells =
      solveRec va cand (countUnassigned cells) k cells := by
  have hsplit : fuel = countUnassigned cells + (fuel - countUnassigned cells) := by
    omega
  rw [hsplit, solveRec_fuel_add]

/-! ### Definitional unfoldings of the three entry points -/

theorem backtrackingSolver_def (cells : List Cell) (va : Validator)
    (maxValue : Option Int) :
    backtrackingSolver cells va maxValue =
      solveRec va (fun _ => candRange (effMax cells.length maxValue))
        (countUnassigned cells) 0 cells := rfl

theorem randomBacktrackingSolver_def (cells : List Cell) (va : Validator)
    (maxValue : Option Int) (perms : Nat → List Nat) :
    randomBacktrackingSolver cells va maxValue perms =
      solveRec va perms (countUnassigned cells) 0 cells := rfl

theorem solutionChecker_found (cells : List Cell) (va : Validator)
    (maxValue : Option Int) :
    (solutionChecker cells va maxValue).result.solutionFound =
      decide (0 < (countRec va (candRange (effMax cells.length maxValue))
        (countUnassigned cells) 0 cells).cnt) := rfl

theorem solutionChecker_multiple (cells : List Cell) (va : Validator)
    (maxValue : Option Int) :
    (solutionChecker cells va maxValue).result.multipleSolutions =
      decide (1 < (countRec va (candRange (effMax cells.length maxValue))
        (countUnassigned cells) 0 cells).cnt) := rfl

theorem solutionChecker_cells (cells : List Cell) (va : Validator)
    (maxValue : Option Int) :
    (solutionChecker cells va maxValue).cells =
      (countRec va (candRange (effMax cells.length maxValue))
        (countUnassigned cells) 0 cells).cells := rfl

theorem solutionChecker_trace (cells : List Cell) (va : Validator)
    (maxValue : Option Int) :
    (solutionChecker cells va maxValue).trace =
      (countRec va (candRange (effMax cells.length maxValue))
        (countUnassigned cells) 0 cells).trace := rfl

/-! ### The claims -/

/-- C1: for every board, rule set and `maxValue`, if `backtrackingSolver`
(or `randomBacktrackingSolver`, for any sequence of shuffles) returns false,
every cell's value at return equals its value before the call: no partial
assignment leaks out of a failed search. -/
theorem claim_C1_failed_search_restores (cells : List Cell) (va : Validator)
    (maxValue : Option Int) (perms : Nat → List Nat) :
    ((backtrackingSolver cells va maxValue).ok = false →
      (backtrackingSolver cells va maxValue).cells = cells) ∧
    ((randomBacktrackingSolver cells va maxValue perms).ok = false →
      (randomBacktrackingSolver cells va maxValue perms).cells = cells) :=
  ⟨fun h => solveRec_restore va _ (countUnassigned cells) 0 cells h,
   fun h => solveRec_restore va perms (countUnassigned cells) 0 cells h⟩

theorem claim_C1_witness :
    (backtrackingSolver cellsOne rejectVa none).cells = cellsOne ∧
    (randomBacktrackingSolver cellsOne rejectVa none (fun _ => [1])).cells =
      cellsOne :=
  ⟨(claim_C1_failed_search_restores cellsOne rejectVa none (fun _ => [1])).1 rfl,
   (claim_C1_failed_search_restores cellsOne rejectVa none (fun _ => [1])).2 rfl⟩

/-- C2: if `backtrackingSolver` returns true, the final board has every cell
assigned, and it is a `Completion` of the input board: each cell that was
unassigned received a value from the candidate range that `validateMove`
accepted against the board state at the moment it was fixed along the
successful path (pre-assigned cells are untouched by construction of
`Completion`). -/
theorem claim_C2_success_is_valid_completion (cells : List Cell)
    (va : Validator) (maxValue : Option Int)
    (h : (backtrackingSolver cells va maxValue).ok = true) :
    findEmptyIdx (backtrackingSolver cells va maxValue).cells = none ∧
    Completion va (candRange (effMax cells.length maxValue)) cells
      (backtrackingSolver cells va maxValue).cells := by
  have hc := solveRec_success va _ (candRange (effMax cells.length maxValue))
    (fun _ v hv => hv) (countUnassigned cells) 0 cells h
  exact ⟨completion_complete _ _ hc, hc⟩

theorem claim_C2_witness :
    findEmptyIdx (backtrackingSolver cells4 permissiveVa none).cells = none ∧
    Completion permissiveVa (candRange (effMax cells4.length none)) cells4
      (backtrackingSolver cells4 permissiveVa none).cells :=
  claim_C2_success_is_valid_completion cells4 permissiveVa none rfl

/-- C3: the search terminates on every finite board because each recursive
call strictly decreases the number of unassigned cells (first conjunct), so
the recursion-depth bound is irrelevant once it reaches that number: with any
fuel at least `countUnassigned cells`, `solveRec` — the recursion underlying
both `backtrackingSolver` and `randomBacktrackingSolver` — computes the same
result as with exactly `countUnassigned cells` (second conjunct). -/
theorem claim_C3_termination (va : Validator) (cand : Nat → List Nat) :
    (∀ (cells : List Cell) (i v : Nat) (c : Cell),
      nthCell cells i = some c → c.value = none →
      countUnassigned (setCell cells i (some v)) < countUnassigned cells) ∧
    (∀ (fuel k : Nat) (cells : List Cell), countUnassigned cells ≤ fuel →
      solveRec va cand fuel k cells =
        solveRec va cand (countUnassigned cells) k cells) := by
  constructor
  · intro cells i v c hc hv
    have := countUnassigned_setCell cells i hc hv v
    omega
  · intro fuel k cells hf
    exact solveRec_fuel_irrel va cand fuel k cells hf

theorem claim_C3_witness :
    countUnassigned (setCell cells4 0 (some 1)) < countUnassigned cells4 ∧
    solveRec permissiveVa (fun _ => candRange 4) 9 0 cells4 =
      solveRec permissiveVa (fun _ => candRange 4) (countUnassigned cells4)
        0 cells4 :=
  ⟨(claim_C3_termination permissiveVa (fun _ => candRange 4)).1
      cells4 0 1 ⟨0, 0, none⟩ rfl rfl,
   (claim_C3_termination permissiveVa (fun _ => candRange 4)).2
      9 0 cells4 (by decide)⟩

/-- C7: on a board with no unassigned cell, all three procedures succeed
immediately (`true`, resp. `solutionFound: true, multipleSolutions: false`),
leave the board unchanged, and make no `validateMove` call (empty trace). -/
theorem claim_C7_complete_board_trivial (cells : List Cell) (va : Validator)
    (maxValue : Option Int) (perms : Nat → List Nat)
    (h : findEmptyIdx cells = none) :
    backtrackingSolver cells va maxValue = ⟨true, cells, 0, []⟩ ∧
    randomBacktrackingSolver cells va maxValue perms = ⟨true, cells, 0, []⟩ ∧
    solutionChecker cells va maxValue = ⟨⟨true, false⟩, cells, []⟩ := by
  refine ⟨?_, ?_, ?_⟩
  · rw [backtrackingSolver_def]
    exact solveRec_complete va _ (countUnassigned cells) 0 cells h
  · rw [randomBacktrackingSolver_def]
    exact solveRec_complete va perms (countUnassigned cells) 0 cells h
  · have hr := countRec_complete va (candRange (effMax cells.length maxValue))
      (countUnassigned cells) 0 cells h
    show (⟨⟨decide (0 < (countRec va (candRange (effMax cells.length maxValue))
        (countUnassigned cells) 0 cells).cnt),
      decide (1 < (countRec va (candRange (effMax cells.length maxValue))
        (countUnassigned cells) 0 cells).cnt)⟩,
      (countRec va (candRange (effMax cells.length maxValue))
        (countUnassigned cells) 0 cells).cells,
      (countRec va (candRange (effMax cells.length maxValue))
        (countUnassigned cells) 0 cells).trace⟩ : CheckerRes) =
      ⟨⟨true, false⟩, cells, []⟩
    rw [hr]
    rfl

theorem claim_C7_witness :
    backtrackingSolver completeOne permissiveVa none =
      ⟨true, completeOne, 0, []⟩ ∧
    randomBacktrackingSolver completeOne permissiveVa none (fun _ => [1]) =
      ⟨true, completeOne, 0, []⟩ ∧
    solutionChecker completeOne permissiveVa none =
      ⟨⟨true, false⟩, completeOne, []⟩ :=
  claim_C7_complete_board_trivial completeOne permissiveVa none
    (fun _ => [1]) rfl

/-- C8: on the 2×2 all-unassigned board with the permissive rule set and
`maxValue` omitted (defaulting to the slot count 4), `backtrackingSolver`
returns true and every cell ends with value 1: candidates are tried in
ascending order and the first valid one is kept. -/
theorem claim_C8_concrete_2x2 :
    (backtrackingSolver cells4 permissiveVa none).ok = true ∧
    (backtrackingSolver cells4 permissiveVa none).cells =
      [⟨0, 0, some 1⟩, ⟨1, 0, some 1⟩, ⟨0, 1, some 1⟩, ⟨1, 1, some 1⟩] :=
  ⟨rfl, rfl⟩

/-- C10: in all three procedures, every cell assigned at call time keeps
exactly its value, both in the final board and at every intermediate state at
which `validateMove` is invoked; moreover every `validateMove` call targets
the first unassigned cell of its state, so pre-assigned cells are never
written or re-validated. -/
theorem claim_C10_assigned_cells_untouched (cells : List Cell)
    (va : Validator) (maxValue : Option Int) (perms : Nat → List Nat) :
    preservesAssigned cells (backtrackingSolver cells va maxValue).cells ∧
    preservesAssigned cells
      (randomBacktrackingSolver cells va maxValue perms).cells ∧
    preservesAssigned cells (solutionChecker cells va maxValue).cells ∧
    (∀ e ∈ (backtrackingSolver cells va maxValue).trace,
      preservesAssigned cells e.state ∧ findEmptyIdx e.state = some e.idx) ∧
    (∀ e ∈ (randomBacktrackingSolver cells va maxValue perms).trace,
      preservesAssigned cells e.state ∧ findEmptyIdx e.state = some e.idx) ∧
    (∀ e ∈ (solutionChecker cells va maxValue).trace,
      preservesAssigned cells e.state ∧ findEmptyIdx e.state = some e.idx) := by
  refine ⟨?_, ?_, ?_, ?_, ?_, ?_⟩
  · exact solveRec_preserves va _ (countUnassigned cells) 0 cells
  · exact solveRec_preserves va perms (countUnassigned cells) 0 cells
  · rw [solutionChecker_cells]
    exact countRec_preserves va _ (countUnassigned cells) 0 cells
  · exact solveRec_trace va _ (countUnassigned cells) 0 cells
  · exact solveRec_trace va perms (countUnassigned cells) 0 cells
  · intro e he
    rw [solutionChecker_trace] at he
    exact countRec_trace va _ (countUnassigned cells) 0 cells e he

theorem claim_C10_witness :
    nthCell (backtrackingSolver demoPre permissiveVa none).cells 0 =
      some ⟨0, 0, some 7⟩ :=
  (claim_C10_assigned_cells_untouched demoPre permissiveVa none
    (fun _ => [1])).1 0 ⟨0, 0, some 7⟩ rfl (by decide)

/-- C4: `solutionChecker` reports `solutionFound` exactly when at least one
complete valid assignment exists, and `multipleSolutions` exactly when two
distinct complete valid assignments exist, valid completions being the
`Completion` relation over the candidate range determined by `maxValue`. -/
theorem claim_C4_uniqueness_detection (cells : List Cell) (va : Validator)
    (maxValue : Option Int) :
    ((solutionChecker cells va maxValue).result.solutionFound = true ↔
      ∃ final, Completion va (candRange (effMax cells.length maxValue))
        cells final) ∧
    ((solutionChecker cells va maxValue).result.multipleSolutions = true ↔
      ∃ f1 f2,
        Completion va (candRange (effMax cells.length maxValue)) cells f1 ∧
        Completion va (candRange (effMax cells.length maxValue)) cells f2 ∧
        f1 ≠ f2) := by
  obtain ⟨h1, h2⟩ := countRec_count va (candRange (effMax cells.length maxValue))
    (countUnassigned cells) 0 cells (by omega)
  have hnd : (candRange (effMax cells.length maxValue)).Nodup :=
    List.nodup_range' 1 _
  constructor
  · rw [solutionChecker_found, decide_eq_true_eq, h1]
    constructor
    · intro hpos
      have hn : 0 < (completions va (candRange (effMax cells.length maxValue))
          (countUnassigned cells) cells).length := by omega
      obtain ⟨final, hf⟩ := (exists_mem_iff_length_pos _).mpr hn
      exact ⟨final, completions_sound va _ _ cells final hf⟩
    · rintro ⟨final, hf⟩
      have hmem := completions_exhaustive va _ hf (countUnassigned cells)
        (le_refl _)
      have hlen := (exists_mem_iff_length_pos _).mp ⟨final, hmem⟩
      omega
  · rw [solutionChecker_multiple, decide_eq_true_eq, h1]
    constructor
    · intro hgt
      have hn : 2 ≤ (completions va (candRange (effMax cells.length maxValue))
          (countUnassigned cells) cells).length := by omega
      obtain ⟨f1, f2, hf1, hf2, hne⟩ := exists_two_distinct_of_nodup
        (completions_nodup va _ hnd (countUnassigned cells) cells) hn
      exact ⟨f1, f2, completions_sound va _ _ cells f1 hf1,
        completions_sound va _ _ cells f2 hf2, hne⟩
    · rintro ⟨f1, f2, hc1, hc2, hne⟩
      have hm1 := completions_exhaustive va _ hc1 (countUnassigned cells)
        (le_refl _)
      have hm2 := completions_exhaustive va _ hc2 (countUnassigned cells)
        (le_refl _)
      have hlen := two_le_length_of_two_mem hm1 hm2 hne
      omega

theorem claim_C4_witness :
    (solutionChecker cellsOne permissiveVa (some 2)).result.multipleSolutions =
      true := by
  have hone : Completion permissiveVa
      (candRange (effMax cellsOne.length (some 2))) cellsOne
      [⟨0, 0, some 1⟩] :=
    Completion.step cellsOne _ 0 1 rfl (by decide) rfl (Completion.done _ rfl)
  have htwo : Completion permissiveVa
      (candRange (effMax cellsOne.length (some 2))) cellsOne
      [⟨0, 0, some 2⟩] :=
    Completion.step cellsOne _ 0 2 rfl (by decide) rfl (Completion.done _ rfl)
  exact (claim_C4_uniqueness_detection cellsOne permissiveVa (some 2)).2.mpr
    ⟨[⟨0, 0, some 1⟩], [⟨0, 0, some 2⟩], hone, htwo, by decide⟩

/-- C5 counterexample: on the one-cell unassigned board with the permissive
rule set and `maxValue = 2`, `solutionChecker` finds two solutions and leaves
the initially-unassigned cell assigned (`some 2`, the second solution) —
refuting the claim that every initially-unassigned cell is unassigned again
after the call even when the search stopped early on a second solution. -/
theorem claim_C5_counterexample :
    nthCell cellsOne 0 = some ⟨0, 0, none⟩ ∧
    (solutionChecker cellsOne permissiveVa (some 2)).result = ⟨true, true⟩ ∧
    (solutionChecker cellsOne permissiveVa (some 2)).cells =
      [⟨0, 0, some 2⟩] :=
  ⟨rfl, rfl, rfl⟩

/-- C5 amended: after `solutionChecker` returns, if `multipleSolutions` is
false every cell (in particular every initially-unassigned one) holds its
pre-call value; if `multipleSolutions` is true the early-stop signal fired
inside the branch of the second solution and the board is instead left fully
assigned at that second solution. -/
theorem claim_C5_amended_restore (cells : List Cell) (va : Validator)
    (maxValue : Option Int) :
    ((solutionChecker cells va maxValue).result.multipleSolutions = false →
      (solutionChecker cells va maxValue).cells = cells) ∧
    ((solutionChecker cells va maxValue).result.multipleSolutions = true →
      findEmptyIdx (solutionChecker cells va maxValue).cells = none) := by
  obtain ⟨h1, h2⟩ := countRec_count va (candRange (effMax cells.length maxValue))
    (countUnassigned cells) 0 cells (by omega)
  constructor
  · intro hm
    rw [solutionChecker_multiple] at hm
    rw [solutionChecker_cells]
    have hcnt := of_decide_eq_false hm
    rw [h1] at hcnt
    apply countRec_restore
    rw [h2, decide_eq_false_iff_not]
    omega
  · intro hm
    rw [solutionChecker_multiple] at hm
    rw [solutionChecker_cells]
    have hcnt := of_decide_eq_true hm
    rw [h1] at hcnt
    apply countRec_stop_complete
    rw [h2, decide_eq_true_eq]
    omega

theorem claim_C5_amended_witness :
    (solutionChecker cellsOne onlyOneVa none).cells = cellsOne ∧
    findEmptyIdx (solutionChecker cellsOne permissiveVa (some 3)).cells =
      none :=
  ⟨(claim_C5_amended_restore cellsOne onlyOneVa none).1 rfl,
   (claim_C5_amended_restore cellsOne permissiveVa (some 3)).2 rfl⟩

/-- C6 counterexample: there is no fast failure for non-positive `maxValue`.
With `maxValue = -1` on a one-cell unassigned board, `backtrackingSolver`
silently returns an ordinary `false` (and `solutionChecker` an ordinary
`solutionFound: false`) although no value was ever tried; with
`maxValue = 0`, the JavaScript `maxValue || board.cells.length` default makes
the solver run as if `maxValue` were omitted and even succeed. -/
theorem claim_C6_counterexample :
    (backtrackingSolver cellsOne permissiveVa (some (-1))).ok = false ∧
    (backtrackingSolver cellsOne permissiveVa (some (-1))).cells = cellsOne ∧
    (solutionChecker cellsOne permissiveVa (some (-1))).result =
      ⟨false, false⟩ ∧
    (backtrackingSolver cellsOne permissiveVa (some 0)).ok = true ∧
    (backtrackingSolver cellsOne permissiveVa (some 0)).cells =
      [⟨0, 0, some 1⟩] :=
  ⟨rfl, rfl, rfl, rfl, rfl⟩

/-- A solver run whose candidate list is empty at every level fails
immediately on any board with an unassigned cell and leaves it unchanged. -/
theorem solveRec_empty_cand (va : Validator) (cand : Nat → List Nat)
    (hcand : ∀ k, cand k = []) :
    ∀ (fuel k : Nat) (cells : List Cell) (i : Nat),
      findEmptyIdx cells = some i →
      (solveRec va cand fuel k cells).ok = false ∧
      (solveRec va cand fuel k cells).cells = cells := by
  intro fuel k cells i hemp
  cases fuel with
  | zero => rw [solveRec_zero va cand k cells i hemp]; exact ⟨rfl, rfl⟩
  | succ f =>
    rw [solveRec_succ va cand f k cells i hemp, hcand k, tryVals_nil]
    exact ⟨rfl, rfl⟩

/-- The counting search with an empty candidate list finds nothing and leaves
any board with an unassigned cell unchanged. -/
theorem countRec_empty_vals (va : Validator) :
    ∀ (fuel cnt : Nat) (cells : List Cell) (i : Nat),
      findEmptyIdx cells = some i →
      countRec va [] fuel cnt cells = ⟨false, cnt, cells, []⟩ := by
  intro fuel cnt cells i hemp
  cases fuel with
  | zero => exact countRec_zero va [] cnt cells i hemp
  | succ f => rw [countRec_succ va [] f cnt cells i hemp, countTry_nil]

/-- C6 amended: a `maxValue` of zero is treated as omitted (the JavaScript
`||` default substitutes the cell count), and a negative `maxValue` makes the
candidate range empty, so on any board with an unassigned cell all three
procedures return an ordinary failure (`false`, resp.
`solutionFound: false`) with the board unchanged — no fast failure or
distinguishable fault is raised. -/
theorem claim_C6_amended_nonpositive_max (cells : List Cell) (va : Validator)
    (m : Int) (perms : Nat → List Nat) :
    (effMax cells.length (some 0) = effMax cells.length none) ∧
    (m < 0 → candRange (effMax cells.length (some m)) = []) ∧
    (m < 0 → ∀ i, findEmptyIdx cells = some i →
      (backtrackingSolver cells va (some m)).ok = false ∧
      (backtrackingSolver cells va (some m)).cells = cells ∧
      ((∀ k, perms k = []) →
        (randomBacktrackingSolver cells va (some m) perms).ok = false ∧
        (randomBacktrackingSolver cells va (some m) perms).cells = cells) ∧
      (solutionChecker cells va (some m)).result = ⟨false, false⟩ ∧
      (solutionChecker cells va (some m)).cells = cells) := by
  have hneg : ∀ m2 : Int, m2 < 0 →
      candRange (effMax cells.length (some m2)) = [] := by
    intro m2 hm2
    have hm0 : m2 ≠ 0 := by omega
    unfold candRange effMax
    simp only [hm0, if_false]
    rw [Int.toNat_eq_zero.mpr (by omega)]
    rfl
  refine ⟨by simp [effMax], fun hm => hneg m hm, fun hm i hemp => ?_⟩
  have hvals := hneg m hm
  have hsolve := solveRec_empty_cand va
    (fun _ => candRange (effMax cells.length (some m))) (fun _ => hvals)
    (countUnassigned cells) 0 cells i hemp
  have hcr :
      countRec va (candRange (effMax cells.length (some m)))
        (countUnassigned cells) 0 cells = ⟨false, 0, cells, []⟩ := by
    rw [hvals]
    exact countRec_empty_vals va (countUnassigned cells) 0 cells i hemp
  refine ⟨?_, ?_, fun hperm => ?_, ?_, ?_⟩
  · rw [backtrackingSolver_def]; exact hsolve.1
  · rw [backtrackingSolver_def]; exact hsolve.2
  · rw [randomBacktrackingSolver_def]
    exact ⟨(solveRec_empty_cand va perms hperm (countUnassigned cells)
        0 cells i hemp).1,
      (solveRec_empty_cand va perms hperm (countUnassigned cells)
        0 cells i hemp).2⟩
  · have hres : (solutionChecker cells va (some m)).result =
        ⟨(solutionChecker cells va (some m)).result.solutionFound,
         (solutionChecker cells va (some m)).result.multipleSolutions⟩ := rfl
    rw [hres, solutionChecker_found, solutionChecker_multiple, hcr]
    rfl
  · rw [solutionChecker_cells, hcr]

theorem claim_C6_amended_witness :
    candRange (effMax cellsOne.length (some (-5))) = [] ∧
    (backtrackingSolver cellsOne permissiveVa (some (-5))).ok = false ∧
    (solutionChecker cellsOne permissiveVa (some (-5))).result =
      ⟨false, false⟩ := by
  have h := claim_C6_amended_nonpositive_max cellsOne permissiveVa (-5)
    (fun _ => [])
  exact ⟨h.2.1 (by decide), (h.2.2 (by decide) 0 rfl).1,
    (h.2.2 (by decide) 0 rfl).2.2.2.1⟩

end GridGame
